import Mathlib

/-!
Verification of the Gherkin auto-complete step catalog engine.

The development shallowly embeds the two Python source modules:
`utilities/gherkin_parser.py` (step extraction and placeholder
normalization) and `gherkin_event_listener.py` (per-keystroke keyword
search, matching and snippet formatting).  Python strings are modelled as
`List Char`; Python sets as `Finset`; the fixed regular expressions are
hand-compiled into executable scanners with the same leftmost, lazy
semantics.
-/

namespace Gherkin

/-- Whitespace recognised by Python `str.split` / `str.strip` (ASCII range). -/
def pyIsSpace (c : Char) : Bool :=
  c = ' ' || c = '\t' || c = '\n' || c = '\r' || c = '\x0b' || c = '\x0c'

/-- Python `str.lstrip()`. -/
def lstrip (s : List Char) : List Char := s.dropWhile pyIsSpace

/-- Python `str.rstrip()`. -/
def rstrip (s : List Char) : List Char := (s.reverse.dropWhile pyIsSpace).reverse

/-- Python `str.strip()`. -/
def strip (s : List Char) : List Char := rstrip (lstrip s)

/-- Python `str.split(maxsplit=1)`: at most one split on a whitespace run,
no empty fields, the remainder keeps its trailing whitespace. -/
def pySplitOnce (s : List Char) : List (List Char) :=
  match s.dropWhile pyIsSpace with
  | [] => []
  | c :: cs =>
    let tok := (c :: cs).takeWhile (fun ch => !pyIsSpace ch)
    match ((c :: cs).dropWhile (fun ch => !pyIsSpace ch)).dropWhile pyIsSpace with
    | [] => [tok]
    | r :: rs => [tok, r :: rs]

/-- Helper for `pySplit`, with fuel bounding the recursion depth. -/
def pySplitAux : Nat → List Char → List (List Char)
  | 0, _ => []
  | fuel + 1, s =>
    match s.dropWhile pyIsSpace with
    | [] => []
    | c :: cs =>
      (c :: cs).takeWhile (fun ch => !pyIsSpace ch) ::
        pySplitAux fuel ((c :: cs).dropWhile (fun ch => !pyIsSpace ch))

/-- Python `str.split()` with no arguments: split on whitespace runs. -/
def pySplit (s : List Char) : List (List Char) := pySplitAux s.length s

/-- Helper splitting a string at its first space character, if any. -/
def splitAtFirstSpace : List Char → Option (List Char × List Char)
  | [] => none
  | c :: cs =>
    if c = ' ' then some ([], cs)
    else (splitAtFirstSpace cs).map (fun p => (c :: p.1, p.2))

/-- Python `str.split(' ', 1)`: split at the first space only, keeping
empty fields (an input without a space yields a one-element list). -/
def pySplitSpaceOnce (s : List Char) : List (List Char) :=
  match splitAtFirstSpace s with
  | some (a, b) => [a, b]
  | none => [s]

/-- Python `str.lower()` (ASCII behaviour). -/
def lowerStr (s : List Char) : List Char := s.map Char.toLower

/-- Python `str.replace(old, new, 1)`: replace the first occurrence of
`old` (anywhere in the string, found by substring search) with `new`. -/
def replaceFirst : List Char → List Char → List Char → List Char
  | [], old, new => if old.isEmpty then new else []
  | c :: cs, old, new =>
    if old.isPrefixOf (c :: cs) then new ++ (c :: cs).drop old.length
    else c :: replaceFirst cs old new

/-- Decimal digit test, as used by the `\d` regex class on ASCII input. -/
def isPyDigit (c : Char) : Bool := '0' ≤ c && c ≤ '9'

/-- Lazy search for the closing delimiter of a `.+?`-style group: returns
the content before the first `close` and the rest after it.  A newline
aborts the search because `.` does not match newline. -/
def closeDelim (close : Char) : List Char → Option (List Char × List Char)
  | [] => none
  | c :: cs =>
    if c = close then some ([], cs)
    else if c = '\n' then none
    else (closeDelim close cs).map (fun p => (c :: p.1, p.2))

/-- Match a delimited token `openC .+? closeC` at the head of the input,
returning the whole token (delimiters included) and the rest. -/
def matchDelim (openC closeC : Char) : List Char → Option (List Char × List Char)
  | o :: c0 :: rest =>
    if o = openC && c0 != '\n' then
      (closeDelim closeC rest).map (fun p => (o :: c0 :: (p.1 ++ [closeC]), p.2))
    else none
  | _ => none

/-- Match the numeric alternative `\d+(\.\d*)?|\.\d+` at the head of the
input. -/
def matchNumber : List Char → Option (List Char × List Char)
  | [] => none
  | c :: cs =>
    if isPyDigit c then
      let ds := (c :: cs).takeWhile isPyDigit
      match (c :: cs).dropWhile isPyDigit with
      | '.' :: rest2 =>
        some (ds ++ '.' :: rest2.takeWhile isPyDigit, rest2.dropWhile isPyDigit)
      | rest => some (ds, rest)
    else if c = '.' then
      match cs with
      | d :: _ =>
        if isPyDigit d then some ('.' :: cs.takeWhile isPyDigit, cs.dropWhile isPyDigit)
        else none
      | [] => none
    else none

/-- Match one token of the detection pattern of `format_steps`:
`(\".+?\")|('.+?')|(<.+?>)|(\d+(\.\d*)?|\.\d+)`, alternatives tried in
order at the current position. -/
def matchToken (cs : List Char) : Option (List Char × List Char) :=
  (matchDelim '"' '"' cs) <|> (matchDelim '\'' '\'' cs) <|>
  (matchDelim '<' '>' cs) <|> matchNumber cs

/-- Helper for `findAll`, with fuel bounding the recursion depth. -/
def findAllAux : Nat → List Char → List (List Char)
  | 0, _ => []
  | _ + 1, [] => []
  | fuel + 1, c :: cs =>
    match matchToken (c :: cs) with
    | some (tok, rest) => tok :: findAllAux fuel rest
    | none => findAllAux fuel cs

/-- Model of `re.findall` for the detection pattern of `format_steps`:
scan left to right, emitting non-overlapping leftmost matches. -/
def findAll (s : List Char) : List (List Char) := findAllAux s.length s

/-- Canonical replacement chosen by `format_steps` from a matched token's
first character; mirrors the `if word:` / `word[0]` branch cascade. -/
def canonOf (w : List Char) : Option (List Char) :=
  match w with
  | [] => none
  | c :: _ =>
    if c = '"' then some "\"input\"".data
    else if c = '\'' then some "'input'".data
    else if c = '<' then some "<input>".data
    else if isPyDigit c || c = '.' then some "[number]".data
    else none

/-- Replacement of one matched token inside the body, exactly as in the
loop of `format_steps`: `body = body.replace(word, canonical, 1)`. -/
def replaceValue (body : List Char) (w : List Char) : List Char :=
  match canonOf w with
  | some rep => replaceFirst body w rep
  | none => body

/-- Placeholder normalization of one step body, as done by the loop body
of `GherkinParser.format_steps`. -/
def format_body (body : List Char) : List Char :=
  (findAll body).foldl replaceValue body

/-- Model of `GherkinParser.format_steps`: normalize every step body and
collect the results into a set. -/
def format_steps (steps : Finset (String × String)) : Finset (String × String) :=
  steps.image (fun p => (p.1, String.mk (format_body p.2.data)))

/-- Primary-keyword test: `first_word in main_words` for
`main_words = ['given', 'when', 'then']`. -/
def isMainWord (w : List Char) : Bool :=
  w == "given".data || w == "when".data || w == "then".data

/-- Continuation-keyword test: `first_word in extra_words` for
`extra_words = ['and', 'but']`. -/
def isExtraWord (w : List Char) : Bool :=
  w == "and".data || w == "but".data

/-- Processing of one line of a feature file by `GherkinParser.get_steps`:
given the current `last_main_word`, returns the updated `last_main_word`
and the step record emitted for this line, if any. -/
def stepLine (lastMainWord : List Char) (line : List Char) :
    List Char × Option (String × String) :=
  match pySplitOnce line with
  | [w, r] =>
    let firstWord := lowerStr w
    if isMainWord firstWord then
      (firstWord, some (String.mk firstWord, String.mk (strip r)))
    else if isExtraWord firstWord then
      (lastMainWord, some (String.mk lastMainWord, String.mk (strip r)))
    else (lastMainWord, none)
  | _ => (lastMainWord, none)

/-- Steps emitted for the lines of one file, threading `last_main_word`
from the given initial value. -/
def fileSteps (lastMainWord : List Char) : List (List Char) → List (String × String)
  | [] => []
  | l :: ls =>
    match stepLine lastMainWord l with
    | (last2, some st) => st :: fileSteps last2 ls
    | (last2, none) => fileSteps last2 ls

/-- Model of `GherkinParser.get_steps` over the line contents of the input
files: `last_main_word` is initialized to the empty string separately for
each file, and all emitted records are accumulated into one set. -/
def get_steps (files : List (List (List Char))) : Finset (String × String) :=
  files.foldl (fun acc f => acc ∪ (fileSteps [] f).toFinset) ∅

/-- Argument to the instrumented `get_steps`: either an object that
already has a `read` attribute (a handle, never closed by `get_steps`),
or a path that `get_steps` opens itself; `contents = none` means
`readlines` raises an exception for that file. -/
inductive FileArg where
  | handle (lines : List (List Char))
  | path (fid : Nat) (contents : Option (List (List Char)))
deriving DecidableEq

/-- Record of which path-files were opened and which were closed during a
run of `get_steps`. -/
structure FileTrace where
  opened : List Nat
  closed : List Nat
deriving DecidableEq

/-- Instrumented model of `GherkinParser.get_steps` tracking opens and
closes: a file is opened when it lacks a `read` attribute, read, and then
closed; there is no exception handler, so a raising `readlines`
propagates immediately, skipping the `file.close()` call and the
remaining files. -/
def runFilesAux : List FileArg → FileTrace → Finset (String × String) →
    FileTrace × Except Unit (Finset (String × String))
  | [], tr, acc => (tr, Except.ok acc)
  | FileArg.handle lines :: fs, tr, acc =>
    runFilesAux fs tr (acc ∪ (fileSteps [] lines).toFinset)
  | FileArg.path fid contents :: fs, tr, acc =>
    match contents with
    | none => (⟨tr.opened ++ [fid], tr.closed⟩, Except.error ())
    | some lines =>
      runFilesAux fs ⟨tr.opened ++ [fid], tr.closed ++ [fid]⟩
        (acc ∪ (fileSteps [] lines).toFinset)

/-- Instrumented `get_steps` started from an empty trace and result set. -/
def get_steps_traced (files : List FileArg) :
    FileTrace × Except Unit (Finset (String × String)) :=
  runFilesAux files ⟨[], []⟩ ∅

/-- Reading the given file does not raise. -/
def readOk : FileArg → Bool
  | FileArg.handle _ => true
  | FileArg.path _ contents => contents.isSome

/-- Join a list of words with single spaces, as `' '.join(words)`. -/
def joinSpace (ws : List (List Char)) : List Char := List.intercalate [' '] ws

/-- Model of `GherkinEventListener._step_matches_line`: the typed words
after the keyword, joined by spaces, must be a character-for-character
prefix of the step's words joined by spaces. -/
def step_matches_line (stepWords lineWords : List (List Char)) : Bool :=
  let lineText := joinSpace (lineWords.drop 1)
  let stepText := joinSpace stepWords
  if lineText.length ≤ stepText.length then
    (lineText.zip stepText).all (fun p => p.1 == p.2)
  else false

/-- Match one token of the snippet pattern of `_format_step`:
`(\".+?\")|('.+?')|(<.+?>)|(\[number\])`. -/
def matchSnippetToken (cs : List Char) : Option (List Char × List Char) :=
  (matchDelim '"' '"' cs) <|> (matchDelim '\'' '\'' cs) <|>
  (matchDelim '<' '>' cs) <|>
  (if "[number]".data.isPrefixOf cs then
    some ("[number]".data, cs.drop "[number]".data.length)
  else none)

/-- Helper for `findSnippet`, with fuel bounding the recursion depth. -/
def findSnippetAux : Nat → List Char → List (List Char)
  | 0, _ => []
  | _ + 1, [] => []
  | fuel + 1, c :: cs =>
    match matchSnippetToken (c :: cs) with
    | some (tok, rest) => tok :: findSnippetAux fuel rest
    | none => findSnippetAux fuel cs

/-- Model of `re.findall` for the snippet pattern of `_format_step`. -/
def findSnippet (s : List Char) : List (List Char) := findSnippetAux s.length s

/-- Rewriting of one matched placeholder token into its indexed snippet
template, as in the loop of `_format_step`; the accumulator carries the
partially rewritten step and the next placeholder index. -/
def snippetStep (acc : List Char × Nat) (w : List Char) : List Char × Nat :=
  match w with
  | [] => acc
  | c :: _ =>
    if c = '"' then
      (replaceFirst acc.1 w
        ('"' :: "$\x7b".data ++ (Nat.repr acc.2).data ++ ":input\x7d".data ++ ['"']), acc.2 + 1)
    else if c = '\'' then
      (replaceFirst acc.1 w
        ('\'' :: "$\x7b".data ++ (Nat.repr acc.2).data ++ ":input\x7d".data ++ ['\'']), acc.2 + 1)
    else if c = '<' then
      (replaceFirst acc.1 w
        ('<' :: "$\x7b".data ++ (Nat.repr acc.2).data ++ ":input\x7d".data ++ ['>']), acc.2 + 1)
    else if c = '[' then
      (replaceFirst acc.1 w
        ("$\x7b".data ++ (Nat.repr acc.2).data ++ ":[number]\x7d".data), acc.2 + 1)
    else acc

/-- Model of `GherkinEventListener._format_step`: first remove, one at a
time, the first occurrence of each character of the already-typed words
`line_words[1:-1]` joined by spaces, then rewrite each placeholder token
into its indexed template, and strip the result. -/
def format_step (step : List Char) (lineWords : List (List Char)) : List Char :=
  let lineText := joinSpace (lineWords.drop 1).dropLast
  let stripped := lineText.foldl (fun st ch => replaceFirst st [ch] []) step
  strip ((findSnippet stripped).foldl snippetStep (stripped, 1)).1

/-- Backward scan over the preceding lines, most recent first, as in the
`else` branch of `_fill_completions`: each line is left-stripped, split at
its first space, and the scan stops at the first line whose first token
lower-cases to a primary keyword. -/
def scanPrev : List (List Char) → Option (List Char)
  | [] => none
  | t :: ts =>
    match pySplitSpaceOnce (lstrip t) with
    | w :: _ => if isMainWord (lowerStr w) then some (lowerStr w) else scanPrev ts
    | [] => scanPrev ts

/-- Keyword search of `_fill_completions` (its `last_keyword` computation):
if the current line's first word is a primary keyword take it, otherwise
scan the preceding lines in reverse; `none` models the empty
`last_keyword` that makes `_fill_completions` log a warning and return. -/
def find_last_keyword (currentLine : List Char) (precedingLines : List (List Char)) :
    Option (List Char) :=
  match pySplit (strip currentLine) with
  | w :: _ =>
    if isMainWord (lowerStr w) then some (lowerStr w)
    else scanPrev precedingLines.reverse
  | [] => scanPrev precedingLines.reverse

/-- Python dict insertion `m[k] = v`: overwrite the existing binding of
`k` in place, or append a new binding at the end. -/
def dictInsert : List (String × (String × String)) → String → (String × String) →
    List (String × (String × String))
  | [], k, v => [(k, v)]
  | p :: ps, k, v => if p.1 == k then (k, v) :: ps else p :: dictInsert ps k v

/-- Python dict lookup `m.get(k)`. -/
def dictGet (m : List (String × (String × String))) (k : String) :
    Option (String × String) :=
  (m.find? (fun p => p.1 == k)).map (fun p => p.2)

/-- Processing of one catalog entry by the completion loop of
`_fill_completions`: steps of the found keyword are always included when
only the keyword has been typed, and otherwise only when
`_step_matches_line` succeeds. -/
def fillStep (lastKeyword : String) (lineWords : List (List Char))
    (m : List (String × (String × String))) (entry : String × String) :
    List (String × (String × String)) :=
  if entry.1 == lastKeyword then
    if lineWords.length = 1 then
      dictInsert m entry.2
        (entry.2 ++ "\t" ++ entry.1, String.mk (format_step entry.2.data []))
    else if lineWords.length > 1 then
      if step_matches_line (pySplit entry.2.data) lineWords then
        dictInsert m entry.2
          (entry.2 ++ "\t" ++ entry.1, String.mk (format_step entry.2.data lineWords))
      else m
    else m
  else m

/-- Completion-filling loop of `_fill_completions` (lines iterating over
the step catalog), building the `completions` dict. -/
def fill_completions (steps : List (String × String)) (lastKeyword : String)
    (lineWords : List (List Char)) : List (String × (String × String)) :=
  steps.foldl (fillStep lastKeyword lineWords) []

/-- Test whether a line updates `last_main_word` in `get_steps`: it must
split into a keyword and a non-empty remainder, with a primary keyword in
front. -/
def linePrimary (p : List Char) : Bool :=
  match pySplitOnce p with
  | [w, _] => isMainWord (lowerStr w)
  | _ => false

/-- Value of `last_main_word` after `get_steps` has processed the given
lines, starting from the given value. -/
def lastAfter (last : List Char) (ls : List (List Char)) : List Char :=
  ls.foldl (fun l p => (stepLine l p).1) last

/-- Identifiers of the path arguments in order: the files `get_steps`
opens itself. -/
def pathIds (files : List FileArg) : List Nat :=
  files.filterMap (fun f =>
    match f with
    | FileArg.path fid _ => some fid
    | FileArg.handle _ => none)

/-! Helper lemmas about `replaceFirst` and `format_body`. -/

/-- Appending a verified prefix to the drop of its length restores the
original list. -/
theorem append_drop_of_isPrefixOf :
    ∀ (l s : List Char), l.isPrefixOf s = true → l ++ s.drop l.length = s
  | [], _, _ => by simp
  | _ :: _, [], h => by simp [List.isPrefixOf] at h
  | a :: l, b :: s, h => by
    rw [List.isPrefixOf] at h
    rcases Bool.and_eq_true_iff.mp h with ⟨hab, hps⟩
    have hab2 : a = b := by simpa using hab
    have ih := append_drop_of_isPrefixOf l s hps
    simp [hab2, ih]

/-- Replacing the first occurrence of a substring by itself is the
identity. -/
theorem replaceFirst_self (s w : List Char) : replaceFirst s w w = s := by
  induction s with
  | nil => cases w <;> simp [replaceFirst, List.isEmpty]
  | cons c cs ih =>
    rw [replaceFirst]
    split
    · exact append_drop_of_isPrefixOf w (c :: cs) (by assumption)
    · rw [ih]

/-- Replacement tokens that are their own canonical form leave the body
unchanged. -/
theorem replaceValue_eq_of_self_canonical (b w : List Char)
    (h : canonOf w = some w) : replaceValue b w = b := by
  unfold replaceValue
  rw [h]
  exact replaceFirst_self b w

/-- Folding the replacement loop over a list of self-canonical tokens is
the identity. -/
theorem foldl_replaceValue_eq (l : List (List Char)) :
    ∀ (b : List Char), (∀ w ∈ l, canonOf w = some w) → l.foldl replaceValue b = b := by
  induction l with
  | nil => intro b _; rfl
  | cons w ws ih =>
    intro b h
    rw [List.foldl_cons, replaceValue_eq_of_self_canonical b w (h w (by simp))]
    exact ih b (fun x hx => h x (by simp [hx]))

/-- Normalization fixes any body whose detected tokens are all
self-canonical. -/
theorem format_body_eq_of_self_canonical (b : List Char)
    (h : ∀ w ∈ findAll b, canonOf w = some w) : format_body b = b :=
  foldl_replaceValue_eq (findAll b) b h

/-! Claims C1 and C2: the matching and formatting example. -/

/-- Claim C1, counterexample: for catalog step `I have "input" apples`
and typed line `Given I have "5`, `_step_matches_line` does NOT return
true — the loop compares every typed character, and the typed `5` at
index 8 differs from the step's `i`. -/
theorem c1_counterexample :
    ¬ step_matches_line (pySplit "I have \"input\" apples".data)
        (pySplit "Given I have \"5".data) = true := by decide

/-- Claim C1 as amended: for catalog step `I have "input" apples` and the
typed line `Given I have "5` split into whitespace-delimited words,
`_step_matches_line` returns false, because the character comparison
covers the whole typed text and `'5' ≠ 'i'` at index 8. -/
theorem c1_matches_line_false :
    step_matches_line (pySplit "I have \"input\" apples".data)
      (pySplit "Given I have \"5".data) = false := by decide

/-- Claim C2, counterexample: `_format_step` on canonical step
`I have "input" apples` with typed words `['Given', 'I', 'have', '"5']`
does NOT return `I have "${1:input}" apples` — the typed portion
`I have` is stripped from the result. -/
theorem c2_counterexample :
    String.mk (format_step "I have \"input\" apples".data
        ["Given".data, "I".data, "have".data, "\"5".data]) ≠
      "I have \"$\x7b1:input\x7d\" apples" := by decide

/-- Claim C2 as amended: `_format_step` on canonical step
`I have "input" apples` with typed words `['Given', 'I', 'have', '"5']`
returns `"${1:input}" apples`: the already-typed words `I have`
(excluding the keyword and the still-being-typed last word) are removed
character by character and the quoted placeholder is rewritten with
index 1. -/
theorem c2_format_step_strips :
    String.mk (format_step "I have \"input\" apples".data
        ["Given".data, "I".data, "have".data, "\"5".data]) =
      "\"$\x7b1:input\x7d\" apples" := by decide

/-! Claim C4: the replacement tokens against the detection pattern. -/

/-- Claim C4, counterexample: the detection scan of `format_steps` run
over the replacement token `"input"` DOES find a match (the token itself),
so the claim that no replacement token is matched is false. -/
theorem c4_counterexample : findAll "\"input\"".data ≠ [] := by decide

/-- Claim C4 as amended: each of the replacement tokens `"input"`,
`'input'`, `<input>` IS matched by the detection pattern, but each is its
own canonical replacement, so replacing it is a no-op; only the
`[number]` token is not matched by the detection pattern at all. -/
theorem c4_replacement_tokens_self_canonical :
    findAll "\"input\"".data = ["\"input\"".data] ∧
    canonOf "\"input\"".data = some "\"input\"".data ∧
    findAll "'input'".data = ["'input'".data] ∧
    canonOf "'input'".data = some "'input'".data ∧
    findAll "<input>".data = ["<input>".data] ∧
    canonOf "<input>".data = some "<input>".data ∧
    findAll "[number]".data = [] := by decide

/-! Claim C6: extraction and normalization of the basic example. -/

/-- Claim C6: a file whose single line is `Given I have "5" apples`
yields exactly the record `("given", "I have \"5\" apples")` from
`get_steps`, and `format_steps` normalizes that record to
`("given", "I have \"input\" apples")`. -/
theorem c6_extract_then_normalize :
    get_steps [["Given I have \"5\" apples".data]] =
        {("given", "I have \"5\" apples")} ∧
      format_steps {("given", "I have \"5\" apples")} =
        {("given", "I have \"input\" apples")} := by decide

/-! Claim C3: idempotence of normalization. -/

/-- Claim C3, counterexample: normalization is NOT idempotent.  For the
step set `{("given", "\"x\"a\"a\" \"a\"")}`, one application of
`format_steps` produces body `"input"input"input" "a"` (the
`replace(..., 1)` call for the second found match `"a"` hits an earlier,
newly created occurrence straddling the first replacement), and a second
application rewrites the surviving `"a"` again. -/
theorem c3_counterexample :
    format_steps (format_steps {("given", "\"x\"a\"a\" \"a\"")}) ≠
      format_steps {("given", "\"x\"a\"a\" \"a\"")} := by decide

/-- Claim C3 as amended: normalization is idempotent on every step set
whose once-normalized bodies contain only self-canonical detected tokens;
re-applying the placeholder canonicalization to such a catalog leaves it
unchanged.  (Unconditional idempotence fails, see the counterexample.) -/
theorem c3_idempotent_on_self_canonical (s : Finset (String × String))
    (h : ∀ p ∈ format_steps s, ∀ w ∈ findAll p.2.data, canonOf w = some w) :
    format_steps (format_steps s) = format_steps s := by
  have hfix : ∀ p ∈ format_steps s,
      (fun q : String × String => (q.1, String.mk (format_body q.2.data))) p = id p := by
    intro p hp
    have hb : format_body p.2.data = p.2.data :=
      format_body_eq_of_self_canonical p.2.data (h p hp)
    cases p with
    | mk a b =>
      cases b with
      | mk bd => simpa using congrArg (fun l => (a, String.mk l)) hb
  calc format_steps (format_steps s)
      = (format_steps s).image
          (fun q : String × String => (q.1, String.mk (format_body q.2.data))) := rfl
    _ = (format_steps s).image id := Finset.image_congr hfix
    _ = format_steps s := Finset.image_id

/-- Witness for the amended claim C3: the example catalog
`{("given", "I have \"5\" apples")}` satisfies the self-canonical-token
condition after one normalization, so normalizing it twice equals
normalizing it once. -/
theorem c3_witness :
    format_steps (format_steps {("given", "I have \"5\" apples")}) =
      format_steps {("given", "I have \"5\" apples")} :=
  c3_idempotent_on_self_canonical {("given", "I have \"5\" apples")} (by decide)

/-! Claim C5: file handles and the close call. -/

/-- Trace computation of the instrumented `get_steps` when no read
raises: every path file is both opened and closed, in order. -/
theorem runFilesAux_trace (files : List FileArg) :
    ∀ (tr : FileTrace) (acc : Finset (String × String)),
      (∀ f ∈ files, readOk f = true) →
      (runFilesAux files tr acc).1 =
        ⟨tr.opened ++ pathIds files, tr.closed ++ pathIds files⟩ := by
  induction files with
  | nil =>
    intro tr acc _
    simp [runFilesAux, pathIds]
  | cons f fs ih =>
    intro tr acc h
    cases f with
    | handle lines =>
      rw [runFilesAux, ih tr _ (fun g hg => h g (by simp [hg]))]
      simp [pathIds]
    | path fid contents =>
      have hok : readOk (FileArg.path fid contents) = true := h _ (by simp)
      cases contents with
      | none => simp [readOk] at hok
      | some lines =>
        rw [runFilesAux]
        rw [ih _ _ (fun g hg => h g (by simp [hg]))]
        simp [pathIds, List.append_assoc]

/-- Claim C5, counterexample: when `readlines` raises for a file that
`get_steps` opened itself, the file is opened but never closed — there is
no exception guard around the read, so the release is not guaranteed on
every exit path. -/
theorem c5_counterexample :
    (get_steps_traced [FileArg.path 0 none]).1.opened = [0] ∧
      (get_steps_traced [FileArg.path 0 none]).1.closed = [] := by decide

/-- Claim C5 as amended: every file that `get_steps` opens is closed on
the normal exit path — if no read raises an exception, the set of closed
files equals the set of opened files; on an exception the current file is
left open. -/
theorem c5_closes_all_when_no_exception (files : List FileArg)
    (h : ∀ f ∈ files, readOk f = true) :
    (get_steps_traced files).1.closed = (get_steps_traced files).1.opened := by
  rw [get_steps_traced, runFilesAux_trace files ⟨[], []⟩ ∅ h]

/-- Witness for the amended claim C5: a run over one readable path file
and one handle closes exactly what it opened. -/
theorem c5_witness :
    (get_steps_traced [FileArg.path 0 (some ["Given I have \"5\" apples".data]),
        FileArg.handle []]).1.closed =
      (get_steps_traced [FileArg.path 0 (some ["Given I have \"5\" apples".data]),
        FileArg.handle []]).1.opened :=
  c5_closes_all_when_no_exception _ (by decide)

/-! Claim C7: backward keyword search. -/

/-- Claim C7: with current line `And the total is 10` and immediately
preceding line `When I add 2 apples`, the keyword search of
`_fill_completions` returns `when`, whatever lines come before: the
continuation keyword `And` on the current line does not stop the search,
and the backward scan stops at the first preceding line whose first token
is a primary keyword. -/
theorem c7_continuation_reuses_prior_keyword (earlier : List (List Char)) :
    find_last_keyword "And the total is 10".data
      (earlier ++ ["When I add 2 apples".data]) = some "when".data := by
  have h : find_last_keyword "And the total is 10".data
      (earlier ++ ["When I add 2 apples".data]) =
      scanPrev (earlier ++ ["When I add 2 apples".data]).reverse := rfl
  rw [h, List.reverse_append]
  rfl

/-! Claim C8: no extraction state across files. -/

/-- Folding set union from any accumulator factors the accumulator out. -/
theorem foldl_union_factor {α : Type} [DecidableEq α] (l : List (Finset α)) :
    ∀ a : Finset α, l.foldl (fun x y => x ∪ y) a = a ∪ l.foldl (fun x y => x ∪ y) ∅ := by
  induction l with
  | nil => intro a; simp
  | cons b bs ih =>
    intro a
    rw [List.foldl_cons, List.foldl_cons, ih (a ∪ b), ih (∅ ∪ b)]
    rw [Finset.empty_union, Finset.union_assoc]

/-- Folding `get_steps`'s accumulation from any starting set factors the
start out. -/
theorem get_steps_foldl_factor (fs : List (List (List Char))) :
    ∀ a : Finset (String × String),
      fs.foldl (fun acc f => acc ∪ (fileSteps [] f).toFinset) a =
        a ∪ fs.foldl (fun acc f => acc ∪ (fileSteps [] f).toFinset) ∅ := by
  induction fs with
  | nil => intro a; simp
  | cons f fs ih =>
    intro a
    rw [List.foldl_cons, List.foldl_cons, ih _, ih (∅ ∪ _)]
    rw [Finset.empty_union, Finset.union_assoc]

/-- Claim C8: extraction state does not carry across files —
`get_steps` over a list of files equals the union of `get_steps` over
each file alone, since `last_main_word` is re-initialized to the empty
string inside the per-file loop. -/
theorem c8_no_state_across_files (files : List (List (List Char))) :
    get_steps files =
      (files.map (fun f => get_steps [f])).foldl (fun a b => a ∪ b) ∅ := by
  induction files with
  | nil => rfl
  | cons f fs ih =>
    rw [List.map_cons, List.foldl_cons]
    rw [foldl_union_factor]
    rw [← ih]
    show List.foldl (fun acc g => acc ∪ (fileSteps [] g).toFinset)
        (∅ ∪ (fileSteps [] f).toFinset) fs = _
    rw [get_steps_foldl_factor]
    show ∅ ∪ (fileSteps [] f).toFinset ∪ get_steps fs = ∅ ∪ get_steps [f] ∪ get_steps fs
    rfl

/-! Claim C9: single-word lines include the whole keyword catalog. -/

/-- Lookup after inserting a key finds the inserted value. -/
theorem dictGet_dictInsert_self (m : List (String × (String × String)))
    (k : String) (v : String × String) : dictGet (dictInsert m k v) k = some v := by
  induction m with
  | nil => simp [dictInsert, dictGet, List.find?]
  | cons p ps ih =>
    rw [dictInsert]
    split
    · simp [dictGet, List.find?]
    · rw [dictGet, List.find?]
      split
      · next heq => simp_all
      · exact ih

/-- Lookup of a different key is unchanged by an insertion. -/
theorem dictGet_dictInsert_ne (m : List (String × (String × String)))
    (k k' : String) (v : String × String) (h : k' ≠ k) :
    dictGet (dictInsert m k v) k' = dictGet m k' := by
  have hkk : (k == k') = false := by simpa using Ne.symm h
  induction m with
  | nil => simp [dictInsert, dictGet, List.find?, hkk]
  | cons p ps ih =>
    rw [dictInsert]
    split
    · next heq =>
      have hpk : p.1 = k := by simpa using heq
      simp [dictGet, List.find?, hpk, hkk]
    · rw [dictGet, List.find?]
      rw [dictGet, List.find?]
      split
      · rfl
      · exact ih

/-- Entries other than `(kw, s)` never change the binding of key `s`
produced by the keyword-only branch. -/
theorem fillStep_preserves (kw : String) (lineWords : List (List Char))
    (m : List (String × (String × String))) (e : String × String) (s : String)
    (h : e ≠ (kw, s)) :
    dictGet (fillStep kw lineWords m e) s = dictGet m s := by
  by_cases h1 : e.1 = kw
  · have h2 : s ≠ e.2 := fun hc => h (by cases e; simp_all)
    unfold fillStep
    rw [if_pos (by simpa using h1)]
    split
    · exact dictGet_dictInsert_ne m e.2 s _ h2
    · split
      · split
        · exact dictGet_dictInsert_ne m e.2 s _ h2
        · rfl
      · rfl
  · unfold fillStep
    rw [if_neg (by simpa using h1)]

/-- Main loop invariant for claim C9: with a single-word line, once a
catalog entry `(kw, s)` is seen (or the binding already present), the
final dict binds `s` to the suggestion built with no typed words
stripped. -/
theorem fill_loop_mem (kw : String) (lineWords : List (List Char)) (s : String)
    (h1 : lineWords.length = 1) :
    ∀ (steps : List (String × String)) (m : List (String × (String × String))),
      ((kw, s) ∈ steps ∨
        dictGet m s = some (s ++ "\t" ++ kw, String.mk (format_step s.data []))) →
      dictGet (steps.foldl (fillStep kw lineWords) m) s =
        some (s ++ "\t" ++ kw, String.mk (format_step s.data [])) := by
  intro steps
  induction steps with
  | nil =>
    intro m h
    rcases h with h | h
    · simp at h
    · exact h
  | cons e es ih =>
    intro m h
    rw [List.foldl_cons]
    apply ih
    by_cases he : e = (kw, s)
    · subst he
      right
      have hstep : fillStep kw lineWords m (kw, s) =
          dictInsert m s (s ++ "\t" ++ kw, String.mk (format_step s.data [])) := by
        unfold fillStep
        rw [if_pos (by simp)]
        rw [if_pos h1]
      rw [hstep, dictGet_dictInsert_self]
    · rcases h with h | h
      · rcases List.mem_cons.mp h with h' | h'
        · exact absurd h'.symm he
        · exact Or.inl h'
      · right
        rw [fillStep_preserves kw lineWords m e s he]
        exact h

/-- Claim C9: when the typed line consists of exactly one word (only the
keyword), the completion loop includes every catalog step whose keyword
equals the found keyword — without consulting `_step_matches_line` — each
bound to its label and to `_format_step` applied with no typed words. -/
theorem c9_keyword_only_includes_all (steps : List (String × String))
    (kw s : String) (lineWords : List (List Char))
    (h1 : lineWords.length = 1) (h2 : (kw, s) ∈ steps) :
    dictGet (fill_completions steps kw lineWords) s =
      some (s ++ "\t" ++ kw, String.mk (format_step s.data [])) :=
  fill_loop_mem kw lineWords s h1 steps [] (Or.inl h2)

/-- Witness for claim C9: a one-entry catalog with the line `Given`. -/
theorem c9_witness :
    dictGet (fill_completions [("given", "I have \"input\" apples")] "given"
        ["Given".data]) "I have \"input\" apples" =
      some ("I have \"input\" apples" ++ "\t" ++ "given",
        String.mk (format_step "I have \"input\" apples".data [])) :=
  c9_keyword_only_includes_all [("given", "I have \"input\" apples")] "given"
    "I have \"input\" apples" ["Given".data] (by decide) (by simp)

/-! Claim C10: continuation lines before any primary keyword. -/

/-- Extra keywords are never primary keywords. -/
theorem isMainWord_eq_false_of_isExtraWord (w : List Char)
    (h : isExtraWord w = true) : isMainWord w = false := by
  unfold isExtraWord at h
  rcases Bool.or_eq_true_iff.mp h with h1 | h1
  · have : w = "and".data := by simpa using h1
    subst this; decide
  · have : w = "but".data := by simpa using h1
    subst this; decide

/-- Lines that are not primary step lines leave `last_main_word`
unchanged. -/
theorem stepLine_fst_of_not_primary (last p : List Char)
    (h : linePrimary p = false) : (stepLine last p).1 = last := by
  unfold stepLine
  split
  · next w r heq =>
    simp only [linePrimary, heq] at h
    simp only [h, Bool.false_eq_true, if_false]
    split <;> rfl
  · rfl

/-- Emission of `get_steps` over concatenated line lists decomposes, with
the state threaded through the first part. -/
theorem fileSteps_append (xs : List (List Char)) :
    ∀ (last : List Char) (ys : List (List Char)),
      fileSteps last (xs ++ ys) = fileSteps last xs ++ fileSteps (lastAfter last xs) ys := by
  induction xs with
  | nil => intro last ys; rfl
  | cons x xs ih =>
    intro last ys
    rcases hsl : stepLine last x with ⟨l2, o⟩
    have hfst : lastAfter last (x :: xs) = lastAfter l2 xs := by
      simp [lastAfter, hsl]
    cases o with
    | some st => simp [List.cons_append, fileSteps, hsl, hfst, ih]
    | none => simp [List.cons_append, fileSteps, hsl, hfst, ih]

/-- With no primary step line processed, `last_main_word` keeps its
initial value. -/
theorem lastAfter_of_no_primary (ls : List (List Char)) :
    ∀ (last : List Char), (∀ p ∈ ls, linePrimary p = false) →
      lastAfter last ls = last := by
  induction ls with
  | nil => intro last _; rfl
  | cons l ls ih =>
    intro last h
    have h1 : lastAfter last (l :: ls) = lastAfter (stepLine last l).1 ls := by
      simp [lastAfter]
    rw [h1, stepLine_fst_of_not_primary last l (h l (by simp))]
    exact ih last (fun p hp => h p (by simp [hp]))

/-- Claim C10: if a line whose first token lower-cases to a continuation
keyword (`and` / `but`) and that has a non-empty remainder occurs before
any primary-keyword line of its file, `get_steps` emits for it a step
record whose keyword is the empty string — the line is not skipped. -/
theorem c10_continuation_empty_keyword (pre rest : List (List Char))
    (l w r : List Char)
    (h1 : ∀ p ∈ pre, linePrimary p = false)
    (h2 : pySplitOnce l = [w, r])
    (h3 : isExtraWord (lowerStr w) = true) :
    (String.mk [], String.mk (strip r)) ∈ fileSteps [] (pre ++ l :: rest) := by
  rw [fileSteps_append pre [] (l :: rest), lastAfter_of_no_primary pre [] h1]
  apply List.mem_append_right
  have hmain : isMainWord (lowerStr w) = false :=
    isMainWord_eq_false_of_isExtraWord (lowerStr w) h3
  have hsl : stepLine [] l = ([], some (String.mk [], String.mk (strip r))) := by
    simp [stepLine, h2, hmain, h3]
  simp [fileSteps, hsl]

/-- Witness for claim C10: the file `Feature: shopping` / `And foo bar`
yields the record `("", "foo bar")`. -/
theorem c10_witness :
    (String.mk [], String.mk (strip "foo bar".data)) ∈
      fileSteps [] (["Feature: shopping".data] ++ "And foo bar".data :: []) :=
  c10_continuation_empty_keyword ["Feature: shopping".data] [] "And foo bar".data
    "And".data "foo bar".data (by decide) (by decide) (by decide)

end Gherkin
